import Mathlib

/-!
Verification development for the fundamentals scoring engine
(quantitative_backtest/打分系统 and source/因子成长率计算.py).

The Python code works on pandas Series of floats; here numbers are modelled
as exact rationals (ℚ), missing values (NaN) as `none : Option ℚ`, and the
floating-point square root / power functions as explicit function parameters
`sq : ℚ → ℚ` / `powf : ℚ → ℚ → ℚ`, so that every definition is executable.
Sample statistics use Bessel's correction exactly as pandas `.std(ddof=1)`,
`np.var(..., ddof=1)`, `np.cov` and `np.std(..., ddof=1)` do.
-/

unseal Rat.mul Rat.add Rat.inv Rat.sub

set_option maxRecDepth 100000

/-- Arithmetic mean of a list, `np.mean` / pandas `.mean()` on the
non-missing values (callers pass lists with missing entries removed). -/
def sampleMean (l : List ℚ) : ℚ := l.sum / (l.length : ℚ)

/-- Sample variance with Bessel's correction, the square of pandas
`.std(ddof=1)` / `np.std(..., ddof=1)`; only used under guards that make
the length at least 2. -/
def sampleVar (l : List ℚ) : ℚ :=
  ((l.map (fun x => (x - sampleMean l) ^ 2)).sum) / ((l.length : ℚ) - 1)

/-- Sample covariance `np.cov(x, y)[0, 1]` (ddof = 1). -/
def sampleCov (xs ys : List ℚ) : ℚ :=
  (((xs.zip ys).map (fun p => (p.1 - sampleMean xs) * (p.2 - sampleMean ys))).sum) /
    ((xs.length : ℚ) - 1)

/-- Peer-group partition key assigned by
`FactorCalculator._get_market_cap_classification`. -/
inductive MarketCapGroup where
  | largeCap : MarketCapGroup
  | smallCap : MarketCapGroup
deriving DecidableEq, Repr

/-- One row of the standardizer's working table: the `market_cap_group`
column (NaN when the merge found no classification) and the numeric factor
(or dimension-score) columns in a fixed order. Embeds a row of the
DataFrame handled by `FactorStandardizer`. -/
structure SRow where
  group : Option MarketCapGroup
  vals : List (Option ℚ)
deriving DecidableEq, Repr

/-- Number of rows of the table whose `market_cap_group` equals `g`
(`len(group_data)` in the source). -/
def groupSize (t : List SRow) (g : MarketCapGroup) : ℕ :=
  (t.filter (fun r => r.group = some g)).length

/-- Value of column `j` in row `r` (missing when the row has no such
column or the cell is NaN). -/
def rowVal (r : SRow) (j : ℕ) : Option ℚ := r.vals.getD j none

/-- The non-missing values of column `j` restricted to peer group `g`, in
row order: `group_data[factor_col].dropna()` in the source. -/
def colVals (t : List SRow) (g : MarketCapGroup) (j : ℕ) : List ℚ :=
  (t.filter (fun r => r.group = some g)).filterMap (fun r => rowVal r j)

/-- Index-aware map over a row's cells (a structurally recursive clone of
`List.mapIdx`, kept local so its evaluation lemmas are simple). -/
def idxMap (f : ℕ → Option ℚ → Option ℚ) : ℕ → List (Option ℚ) → List (Option ℚ)
  | _, [] => []
  | i, v :: vs => f i v :: idxMap f (i + 1) vs

/-- Z-transform of one cell of column `j` for peer group `g`, reading the
column statistics from the original table `t` exactly as the source does:
the column is standardized only when it has at least 5 non-missing values
in the group and a positive sample standard deviation, otherwise the cell
passes through. `sq` models the floating-point square root. -/
def zCol (sq : ℚ → ℚ) (t : List SRow) (g : MarketCapGroup) (j : ℕ)
    (v : Option ℚ) : Option ℚ :=
  let cv := colVals t g j
  if 5 ≤ cv.length then
    let m := sampleMean cv
    let s := sq (sampleVar cv)
    if 0 < s then v.map (fun x => (x - m) / s) else v
  else v

/-- Row-level action of the per-group Z-scoring: a row with no peer group
is untouched; a row of group `g` is untouched when its group has fewer
than 5 members, otherwise each of its cells is z-transformed. -/
def stdRow (sq : ℚ → ℚ) (t : List SRow) (r : SRow) : SRow :=
  match r.group with
  | none => r
  | some g =>
    if groupSize t g < 5 then r
    else { r with vals := idxMap (zCol sq t g) 0 r.vals }

/-- Embeds `FactorStandardizer._standardize_by_market_cap_group` (and the
identical dimension-score standardization loop at the top of
`_calculate_final_scores`). The Python loop runs over the two disjoint
groups and writes `(x - mean) / std` through a boolean row mask, always
reading the statistics from the unmodified input table, so it is the
per-row dispatch written here. -/
def groupZStandardize (sq : ℚ → ℚ) (t : List SRow) : List SRow :=
  t.map (stdRow sq t)

/-- Embeds `config.factor_config.get_missing_thresholds`. -/
structure MissingThresholds where
  profitability_min_factors : ℕ
  growth_min_factors : ℕ
  safety_min_factors : ℕ
  max_missing_dimensions : ℕ
  min_valid_dimensions : ℕ
  min_quarters_for_calculation : ℕ
  min_trading_days_for_beta : ℕ
deriving DecidableEq, Repr

/-- The configured missing-data thresholds. -/
def getMissingThresholds : MissingThresholds :=
  { profitability_min_factors := 4
    growth_min_factors := 3
    safety_min_factors := 3
    max_missing_dimensions := 1
    min_valid_dimensions := 2
    min_quarters_for_calculation := 2
    min_trading_days_for_beta := 50 }

/-- Member-factor columns of the profitability dimension
(`_calculate_dimension_scores`). -/
def profitabilityFactorNames : List String :=
  ["ROE", "ROA", "毛利率", "自由现金流资产比", "毛利润资产比", "现金流质量"]

/-- Member-factor columns of the growth dimension. -/
def growthFactorNames : List String :=
  ["ROE成长性", "ROA成长性", "毛利率成长性", "自由现金流资产比成长性", "毛利润资产比成长性"]

/-- Member-factor columns of the safety dimension. -/
def safetyFactorNames : List String :=
  ["低Beta", "低个股风险", "低负债率", "奥特曼Z值"]

/-- Embeds `FactorStandardizer._calculate_single_dimension_score` for one
stock: collect the non-missing member-factor values and take their mean
when at least `minFactors` are present, otherwise the score is NaN. -/
def calcSingleDimensionScore (facs : List (Option ℚ)) (minFactors : ℕ) : Option ℚ :=
  let vals := facs.filterMap id
  if minFactors ≤ vals.length then some (sampleMean vals) else none

/-- The final-score gate of `_calculate_final_scores` for one row whose
`vals` are the three (possibly re-standardized) dimension scores:
`missing_dimensions <= max_missing_dimensions and len(valid_dimensions) > 0`,
and on success the unweighted mean of the valid dimension scores.
`dimension_cols` has length 3 in the source. -/
def finalScoreOfRow (r : SRow) : Option ℚ :=
  let valid := r.vals.filterMap id
  if 3 - valid.length ≤ getMissingThresholds.max_missing_dimensions ∧ 0 < valid.length
  then some (sampleMean valid) else none

/-- The `group_final_scores` list of one peer group: the gated final
scores of the group's rows in input (index) order. -/
def groupValidScores (t : List SRow) (g : MarketCapGroup) : List ℚ :=
  (t.filter (fun r => r.group = some g)).filterMap finalScoreOfRow

/-- Embeds `scipy.stats.rankdata([-score for score in s], method='ordinal')`:
element `i` gets rank 1 plus the number of strictly larger scores plus the
number of equal scores occurring earlier (stable descending order). -/
def ordinalRanksDesc (z : List ℚ) : List ℕ :=
  (List.range z.length).map (fun i =>
    1 + (z.filter (fun y => z.getD i 0 < y)).length +
      ((z.take i).filter (fun y => y = z.getD i 0)).length)

/-- One peer group's final-score and rank lists, as appended to the global
`final_scores` / `final_ranks` lists by `_calculate_final_scores`: with at
least 5 retained stocks the scores are z-scored (when their standard
deviation is positive) and ranked descending; with fewer, the raw scores
are kept and the ranks are `i + 1` in iteration order. -/
def groupScoresAndRanks (sq : ℚ → ℚ) (t : List SRow) (g : MarketCapGroup) :
    List ℚ × List ℕ :=
  let s := groupValidScores t g
  if 5 ≤ s.length then
    let m := sampleMean s
    let sd := sq (sampleVar s)
    let z := if 0 < sd then s.map (fun x => (x - m) / sd) else s
    (z, ordinalRanksDesc z)
  else (s, (List.range s.length).map (fun i => i + 1))

/-- Embeds `FactorStandardizer._calculate_final_scores`: first the
dimension columns are group-z-scored, then the per-group score/rank lists
are concatenated (large_cap first, then small_cap), padded with NaN up to
the table length, truncated to it, and assigned to the table rows
POSITIONALLY — exactly the `final_data['final_score'] =
final_scores[:len(final_data)]` assignment of the source, which ignores
the collected `valid_indices`. The result pairs each row position with its
assigned `(final_score, final_rank)`. -/
def calculateFinalScores (sq : ℚ → ℚ) (table : List SRow) :
    List (Option ℚ × Option ℕ) :=
  let t := groupZStandardize sq table
  let pl := groupScoresAndRanks sq t MarketCapGroup.largeCap
  let ps := groupScoresAndRanks sq t MarketCapGroup.smallCap
  let scores := ((pl.1 ++ ps.1).map some) ++
    List.replicate (t.length - (pl.1 ++ ps.1).length) (none : Option ℚ)
  let ranks := ((pl.2 ++ ps.2).map some) ++
    List.replicate (t.length - (pl.2 ++ ps.2).length) (none : Option ℕ)
  (scores.take t.length).zip (ranks.take t.length)

/-- The latest financial snapshot consumed by
`SafetyCalculator._calculate_altman_z` (`stock_financial.tail(1)`); each
field is `none` when the column is NaN for that row. -/
structure FinSnapshot where
  working_capital : Option ℚ
  retained_earnings : Option ℚ
  ebit : Option ℚ
  total_revenue : Option ℚ
  total_assets : Option ℚ
deriving DecidableEq, Repr

/-- Embeds `SafetyCalculator._calculate_altman_z` after the snapshot
extraction: `total_debt = total_assets * 0.4`; the factor is `None` when
`total_assets` (hence also `total_debt`) is NaN, or either is zero; each
z-term contributes 0 when its numerator is NaN, and the market-value term
additionally requires `total_debt > 0`. -/
def calcAltmanZ (f : FinSnapshot) (marketValue : Option ℚ) : Option ℚ :=
  match f.total_assets with
  | none => none
  | some a =>
    let totalDebt := a * (4 / 10)
    if a = 0 ∨ totalDebt = 0 then none
    else
      let z1 := match f.working_capital with
        | some w => (12 / 10) * (w / a)
        | none => 0
      let z2 := match f.retained_earnings with
        | some r => (14 / 10) * (r / a)
        | none => 0
      let z3 := match f.ebit with
        | some e => (33 / 10) * (e / a)
        | none => 0
      let z4 := match marketValue with
        | some mv => if 0 < totalDebt then (6 / 10) * (mv / totalDebt) else 0
        | none => 0
      let z5 := match f.total_revenue with
        | some rev => 1 * (rev / a)
        | none => 0
      some (z1 + z2 + z3 + z4 + z5)

/-- Replaces every missing z-term numerator of the snapshot by 0 (the
`total_assets` denominator is untouched); used to state that a missing
numerator contributes exactly its additive zero. -/
def fillMissingNumerators (f : FinSnapshot) : FinSnapshot :=
  { f with
    working_capital := some (f.working_capital.getD 0)
    retained_earnings := some (f.retained_earnings.getD 0)
    ebit := some (f.ebit.getD 0)
    total_revenue := some (f.total_revenue.getD 0) }

/-- Mean of the last 3 periods of the n0n-missing series
(`series.iloc[-3:].mean()` in `calculate_stable_growth`). -/
def latestWindowAvg (s : List ℚ) : ℚ := sampleMean (s.drop (s.length - 3))

/-- Python `series.iloc[a:b]` for the index range used by the base-window
search: `a` negative with `-len s ≤ a`, and `b ≤ 0` (a zero stop yields
the empty slice, exactly as in Python). -/
def islice (s : List ℚ) (a b : ℤ) : List ℚ :=
  if b = 0 then []
  else (s.take ((s.length : ℤ) + b).toNat).drop (((s.length : ℤ) + a).toNat)

/-- The base-window search loop of `calculate_stable_growth` over the
shifts `range(6)`: the window of `2*2+1` periods is centered
`target_years*4 + 1 + shift` periods before the end; the first in-bounds
window with at least 3 values (`min_periods_in_window`) yields its mean
and the actual elapsed years, computed from the index positions of the
window ends — which for a full slice equals `-(window_end_idx) / 4`. -/
def findBaseWindowAux (s : List ℚ) (targetYears : ℕ) : List ℕ → Option (ℚ × ℚ)
  | [] => none
  | shift :: rest =>
    let center : ℤ := -((targetYears : ℤ) * 4) - 1 - (shift : ℤ)
    let a : ℤ := center - 2
    let b : ℤ := center + 2 + 1
    if -(s.length : ℤ) ≤ a ∧ b ≤ 0 then
      let w := islice s a b
      if 3 ≤ w.length then some (sampleMean w, ((-b : ℤ) : ℚ) / 4)
      else findBaseWindowAux s targetYears rest
    else findBaseWindowAux s targetYears rest

/-- The base-window search over `for shift in range(6)`. -/
def findBaseWindow (s : List ℚ) (targetYears : ℕ) : Option (ℚ × ℚ) :=
  findBaseWindowAux s targetYears [0, 1, 2, 3, 4, 5]

/-- Embeds `calculate_stable_growth` of source/因子成长率计算.py with the
default parameters (`base_window_half_size=2`, `min_periods_in_window=3`):
NaN when fewer than 3 non-missing values or no base window; the −10
sentinel when base and latest window averages are not both strictly
positive; otherwise the annualized growth with the elapsed years floored
at 1. `powf a e` models the float power `a ** e`. -/
def calculateStableGrowth (powf : ℚ → ℚ → ℚ) (row : List (Option ℚ))
    (targetYears : ℕ) : Option ℚ :=
  let s := row.filterMap id
  if s.length < 3 then none
  else
    match findBaseWindow s targetYears with
    | none => none
    | some (baseAvg, actualYears) =>
      if 0 < baseAvg ∧ 0 < latestWindowAvg s then
        some (powf (latestWindowAvg s / baseAvg)
          (1 / (if actualYears < 1 then 1 else actualYears)) - 1)
      else some (-10)

/-- Right-aligned truncation of the two return series to equal length
(`stock_returns[-min_length:]` / `benchmark_returns[-min_length:]`). -/
def truncAlign (s b : List (Option ℚ)) : List (Option ℚ) × List (Option ℚ) :=
  let m := min s.length b.length
  (s.drop (s.length - m), b.drop (b.length - m))

/-- The valid paired observations after truncation: positions where both
the stock and the benchmark return are non-missing
(`valid_idx = ~(isnan(stock) | isnan(benchmark))`). -/
def validPairs (s b : List (Option ℚ)) : List (ℚ × ℚ) :=
  let t := truncAlign s b
  (t.1.zip t.2).filterMap (fun p =>
    match p.1, p.2 with
    | some x, some y => some (x, y)
    | _, _ => none)

/-- Number of valid paired observations. -/
def validPairCount (s b : List (Option ℚ)) : ℕ := (validPairs s b).length

/-- Sample variance of the benchmark over the valid pairs
(`np.var(benchmark_returns, ddof=1)` after filtering). -/
def benchVariance (s b : List (Option ℚ)) : ℚ :=
  sampleVar ((validPairs s b).map Prod.snd)

/-- Embeds `SafetyCalculator._calculate_market_risk_factors` for one
stock: `(低Beta, 低个股风险)` as options. The raw series must both have at
least 50 observations, then at least 30 valid pairs must remain; when the
benchmark sample variance is not positive, `beta` is never bound, the
following `alpha` line raises `NameError`, the exception handler swallows
it, and NEITHER factor is emitted. `sq` models `np.sqrt`. -/
def marketRiskFactors (sq : ℚ → ℚ) (stockRet benchRet : List (Option ℚ)) :
    Option ℚ × Option ℚ :=
  if stockRet.length < 50 ∨ benchRet.length < 50 then (none, none)
  else
    let pr := validPairs stockRet benchRet
    if pr.length < 30 then (none, none)
    else
      let xs := pr.map Prod.fst
      let ys := pr.map Prod.snd
      let covariance := sampleCov xs ys
      let marketVariance := sampleVar ys
      if 0 < marketVariance then
        let beta := covariance / marketVariance
        let alpha := sampleMean xs - beta * sampleMean ys
        let residuals := pr.map (fun p => p.1 - (alpha + beta * p.2))
        (some (-beta), some (-(sq (sampleVar residuals) * sq 252)))
      else (none, none)

/-- Embeds the per-factor aggregation loop of
`GrowthCalculator.calculate_factors` (lines 352–367): given the per-horizon
growth rates of one stock and one factor, a single valid rate is passed
through, and with several valid rates the value is
`(mean(valid) - np.mean(valid)) / std(valid)` when the standard deviation
is positive — the mean z-scored against itself. -/
def growthCompositeValue (sq : ℚ → ℚ) (rates : List (Option ℚ)) : Option ℚ :=
  if 0 < rates.length ∧ ¬ rates.all Option.isNone then
    let valid := rates.filterMap id
    if 0 < valid.length then
      match valid with
      | [v] => some v
      | _ =>
        let meanRate := sampleMean valid
        let stdRate := if 1 < valid.length then sq (sampleVar valid) else 1
        if 0 < stdRate then some ((meanRate - sampleMean valid) / stdRate)
        else some meanRate
    else none
  else none

/-- Result of `StockScoringSystem.calculate_scores` for one date: either a
success payload or an error record (the dict with `success: False` or a
bare `error` key — both read as a failure by `batch_calculate`). -/
inductive ScoreResult (α : Type) where
  | success : α → ScoreResult α
  | failure : String → ScoreResult α
deriving DecidableEq, Repr

/-- Folds an exceptional per-date outcome into the entry stored in
`batch_results`: a raised exception is recorded as
`{"success": False, "error": str(e)}`. -/
def outcomeEntry {α : Type} : Except String (ScoreResult α) → ScoreResult α
  | Except.ok r => r
  | Except.error e => ScoreResult.failure e

/-- `result.get("success", False)`. -/
def isSuccessResult {α : Type} : ScoreResult α → Bool
  | ScoreResult.success _ => true
  | ScoreResult.failure _ => false

/-- Python dict assignment `d[k] = v`: replaces the value at an existing
key in place, otherwise appends the new binding. -/
def dictInsert {β : Type} : List (String × β) → String → β → List (String × β)
  | [], k, v => [(k, v)]
  | (k1, v1) :: rest, k, v =>
    if k1 = k then (k1, v) :: rest else (k1, v1) :: dictInsert rest k v

/-- One iteration of the `for date in date_list` loop of
`batch_calculate`: the per-date computation either returns a result dict
or raises; the entry is stored under the date key and the success counter
is bumped for successful results. -/
def batchStep {α : Type} (compute : String → Except String (ScoreResult α))
    (acc : List (String × ScoreResult α) × ℕ) (d : String) :
    List (String × ScoreResult α) × ℕ :=
  match compute d with
  | Except.ok r =>
    (dictInsert acc.1 d r, if isSuccessResult r then acc.2 + 1 else acc.2)
  | Except.error e => (dictInsert acc.1 d (ScoreResult.failure e), acc.2)

/-- The summary dict returned by `batch_calculate`. -/
structure BatchSummary (α : Type) where
  totalDates : ℕ
  successCount : ℕ
  failureCount : ℕ
  successRate : ℚ
  results : List (String × ScoreResult α)
deriving Repr

/-- Embeds `StockScoringSystem.batch_calculate`: every date of the list is
processed in order, exceptions are caught per date, and the summary
aggregates the entries. -/
def batchCalculate {α : Type} (compute : String → Except String (ScoreResult α))
    (dates : List String) : BatchSummary α :=
  let acc := dates.foldl (batchStep compute) ([], 0)
  { totalDates := dates.length
    successCount := acc.2
    failureCount := dates.length - acc.2
    successRate := if dates.length = 0 then 0 else (acc.2 : ℚ) / (dates.length : ℚ)
    results := acc.1 }

/-- The `large_small_cutoff` of `GLOBAL_CONFIG['market_cap']` (in 亿元). -/
def largeSmallCutoff : ℚ := 100

/-- The classification lambda applied to the latest market value: NaN
compares as not `>=`, hence `small_cap`. -/
def classifyMv : Option ℚ → MarketCapGroup
  | some v =>
    if largeSmallCutoff * 10000 ≤ v then MarketCapGroup.largeCap
    else MarketCapGroup.smallCap
  | none => MarketCapGroup.smallCap

/-- `market_data.groupby('ts_code')['total_mv'].last()` for one code: the
last non-missing `total_mv` among the code's rows (in date order). -/
def lastMv (c : String) (data : List (String × Option ℚ)) : Option ℚ :=
  ((data.filter (fun p => p.1 = c)).filterMap Prod.snd).getLast?

/-- Embeds `FactorCalculator._get_market_cap_classification`: with no
market data at all, every stock of the universe defaults to `large_cap`;
otherwise exactly the codes present in the market data are classified by
their latest market value against `cutoff * 10000`. (`groupby` sorts the
group keys; the key order is irrelevant to every lookup, so the deduped
first-occurrence order is used here.) -/
def getMarketCapClassification (stockCodes : List String)
    (data : List (String × Option ℚ)) : List (String × MarketCapGroup) :=
  match data with
  | [] => stockCodes.map (fun c => (c, MarketCapGroup.largeCap))
  | _ :: _ =>
    ((data.map Prod.fst).dedup).map (fun c => (c, classifyMv (lastMv c data)))

/-- Concrete standardizer input for C1: two retained `small_cap` stocks,
the first with final score 1 and the second with final score 3. -/
def c1table : List SRow :=
  [⟨some MarketCapGroup.smallCap, [some 1, some 1, some 1]⟩,
   ⟨some MarketCapGroup.smallCap, [some 3, some 3, some 3]⟩]

/-- Concrete standardizer input for C2: row 0 is a `small_cap` stock with
only one valid dimension (fails the ≥2 gate), row 1 a `large_cap` stock
with all three dimensions (final score 2). -/
def c2table : List SRow :=
  [⟨some MarketCapGroup.smallCap, [some 1, none, none]⟩,
   ⟨some MarketCapGroup.largeCap, [some 1, some 2, some 3]⟩]

/-- Concrete factor table for the C3 counterexample: a `large_cap` group
of 5 members whose single factor column has only 4 non-missing values
(mean 1, not all equal). -/
def c3table : List SRow :=
  [⟨some MarketCapGroup.largeCap, [some 0]⟩,
   ⟨some MarketCapGroup.largeCap, [some 0]⟩,
   ⟨some MarketCapGroup.largeCap, [some 2]⟩,
   ⟨some MarketCapGroup.largeCap, [some 2]⟩,
   ⟨some MarketCapGroup.largeCap, [none]⟩]

/-- Concrete factor table for the C3 witness: a `large_cap` group of 5
members whose factor column [0, 0, 1, 2, 2] has sample variance exactly 1. -/
def c3wTable : List SRow :=
  [⟨some MarketCapGroup.largeCap, [some 0]⟩,
   ⟨some MarketCapGroup.largeCap, [some 0]⟩,
   ⟨some MarketCapGroup.largeCap, [some 1]⟩,
   ⟨some MarketCapGroup.largeCap, [some 2]⟩,
   ⟨some MarketCapGroup.largeCap, [some 2]⟩]

/-- Concrete factor table for the C3 witness pass-through part: a
`large_cap` group with only 2 members. -/
def c3smallTable : List SRow :=
  [⟨some MarketCapGroup.largeCap, [some 4]⟩,
   ⟨some MarketCapGroup.largeCap, [some 9]⟩]

/-- Concrete factor table for the C3 witness zero-variance part: a
`large_cap` group of 5 members whose factor column is constant (sample
variance 0, square root 0). -/
def c3constTable : List SRow :=
  [⟨some MarketCapGroup.largeCap, [some 7]⟩,
   ⟨some MarketCapGroup.largeCap, [some 7]⟩,
   ⟨some MarketCapGroup.largeCap, [some 7]⟩,
   ⟨some MarketCapGroup.largeCap, [some 7]⟩,
   ⟨some MarketCapGroup.largeCap, [some 7]⟩]

/-- Concrete quarterly series for the C5 witness: 12 positive then 3
negative periods, so the 3-years-back base window average is 1 while the
latest window average is −1. -/
def c5row : List (Option ℚ) :=
  List.replicate 12 (some (1 : ℚ)) ++ List.replicate 3 (some (-1))

/-- Concrete stock return series for the C6 counterexample: 50 raw
observations of which the last 30 pair with the benchmark. -/
def c6stock : List (Option ℚ) :=
  List.replicate 20 (none : Option ℚ) ++ List.replicate 30 (some 1)

/-- Concrete benchmark return series for the C6 counterexample: 50 raw
observations, non-constant over the 30 paired positions. -/
def c6bench : List (Option ℚ) :=
  List.replicate 20 (some (0 : ℚ)) ++ List.replicate 15 (some 0) ++
    List.replicate 15 (some 1)

/-- Concrete per-date computation for the C8 witness: the first date
raises, the second succeeds. -/
def c8compute : String → Except String (ScoreResult ℕ) := fun d =>
  if d = "2022-01-31" then Except.error "database down"
  else Except.ok (ScoreResult.success 1)

/-- Concrete market-value query result for the C10 theorems: non-empty,
with rows for stock A only (latest value 2000000) and none for stock B. -/
def c10data : List (String × Option ℚ) :=
  [("A", some 2000000)]

/-- Concrete market-value query result for the C10 witness: stock A has a
classifiable latest value, stock B has only missing values. -/
def c10wdata : List (String × Option ℚ) :=
  [("A", some 500000), ("A", some 2000000), ("B", none)]

/-!  Theorems. -/

/-- C1. The claim states that within every peer group final ranks are a
dense permutation with rank 1 at the maximum final score and each rank
attached to the stock that earned it. The code violates this: for a group
with fewer than 5 retained stocks `_calculate_final_scores` assigns the
ranks `i + 1` in input order, ignoring the scores. On `c1table` the two
small_cap stocks have final scores 1 and 3, yet rank 1 is assigned to the
score-1 stock and rank 2 to the score-3 stock. -/
theorem c1_rank_divergence :
    calculateFinalScores (fun _ => 0) c1table =
      [(some 1, some 1), (some 3, some 2)] ∧
    finalScoreOfRow (c1table.getD 0 ⟨none, []⟩) = some 1 ∧
    finalScoreOfRow (c1table.getD 1 ⟨none, []⟩) = some 3 ∧
    (1 : ℚ) < 3 := by decide

/-- C2. The claim states that a stock failing the ≥2-valid-dimensions gate
receives no final score and no rank in the output. The code violates this:
the per-group score/rank lists are written back positionally
(`final_data['final_score'] = final_scores[:len(final_data)]`), so on
`c2table` the gate-failing small_cap row 0 receives the large_cap stock's
final score 2 and rank 1, while the gate-passing row 1 receives nothing. -/
theorem c2_gate_divergence :
    finalScoreOfRow (c2table.getD 0 ⟨none, []⟩) = none ∧
    finalScoreOfRow (c2table.getD 1 ⟨none, []⟩) = some 2 ∧
    calculateFinalScores (fun _ => 0) c2table =
      [(some 2, some 1), (none, none)] := by decide

/-- C3 counterexample. A peer group with 5 members whose factor column has
only 4 non-missing values is left completely unstandardized (the code
requires at least 5 non-missing values in the column), so after the
standardization step the column mean over non-missing entries is 1, not 0. -/
theorem c3_counterexample :
    groupZStandardize (fun _ => 0) c3table = c3table ∧
    groupSize c3table MarketCapGroup.largeCap = 5 ∧
    colVals c3table MarketCapGroup.largeCap 0 = [0, 0, 2, 2] ∧
    sampleMean (colVals c3table MarketCapGroup.largeCap 0) = 1 := by decide

/-- C6 counterexample. With 50 raw observations on both series but only
30 valid pairs, the code still produces the beta factor (its valid-pair
threshold is hardcoded to 30, not the claimed 50). -/
theorem c6_counterexample :
    validPairCount c6stock c6bench = 30 ∧
    validPairCount c6stock c6bench < 50 ∧
    (marketRiskFactors (fun _ => 0) c6stock c6bench).1.isSome = true ∧
    (marketRiskFactors (fun _ => 0) c6stock c6bench).2.isSome = true := by decide

/-- C10 counterexample. When the market-value query returns data but has
no rows at all for stock B, the classification table contains no entry for
B: B belongs to no peer group even though the data is non-empty, refuting
the claim that every stock then falls in exactly one group. -/
theorem c10_counterexample :
    c10data ≠ [] ∧
    (getMarketCapClassification ["A", "B"] c10data).lookup "B" = none ∧
    (getMarketCapClassification ["A", "B"] c10data).lookup "A" =
      some MarketCapGroup.largeCap := by decide

/-- C4. The dimension score of a stock is defined iff the number of
non-missing standardized member factors reaches the dimension's configured
minimum (profitability 4 of its 6 member factors, growth 3 of 5, safety
3 of 4 — so it is defined exactly at the threshold and undefined one
below), and when defined it is the sum of exactly the non-missing member
factors divided by their count: a missing factor never enters the mean. -/
theorem c4_dimension_gate :
    profitabilityFactorNames.length = 6 ∧
    growthFactorNames.length = 5 ∧
    safetyFactorNames.length = 4 ∧
    getMissingThresholds.profitability_min_factors = 4 ∧
    getMissingThresholds.growth_min_factors = 3 ∧
    getMissingThresholds.safety_min_factors = 3 ∧
    ∀ (facs : List (Option ℚ)) (m : ℕ),
      ((calcSingleDimensionScore facs m).isSome = true ↔
        m ≤ (facs.filterMap id).length) ∧
      ∀ v, calcSingleDimensionScore facs m = some v →
        v = (facs.filterMap id).sum / ((facs.filterMap id).length : ℚ) := by
  refine ⟨rfl, rfl, rfl, rfl, rfl, rfl, ?_⟩
  intro facs m
  constructor
  · by_cases h : m ≤ (facs.filterMap id).length
    · simp [calcSingleDimensionScore, h]
    · simp [calcSingleDimensionScore, h]
  · intro v hv
    by_cases h : m ≤ (facs.filterMap id).length
    · simp only [calcSingleDimensionScore, if_pos h, Option.some.injEq] at hv
      rw [← hv]
      rfl
    · simp [calcSingleDimensionScore, h] at hv

/-- C5. In `calculate_stable_growth`, whenever the base-window search
succeeds but the base and latest window averages are not both strictly
positive, the result is exactly the −10 sentinel (not NaN); when both are
strictly positive, the result is
`(latest/base) ** (1/actual_years) - 1` with the elapsed years floored
at 1. -/
theorem c5_growth_sentinel (powf : ℚ → ℚ → ℚ) (row : List (Option ℚ))
    (targetYears : ℕ) (b t : ℚ)
    (h3 : 3 ≤ (row.filterMap id).length)
    (hw : findBaseWindow (row.filterMap id) targetYears = some (b, t)) :
    (¬ (0 < b ∧ 0 < latestWindowAvg (row.filterMap id)) →
      calculateStableGrowth powf row targetYears = some (-10)) ∧
    ((0 < b ∧ 0 < latestWindowAvg (row.filterMap id)) →
      calculateStableGrowth powf row targetYears =
        some (powf (latestWindowAvg (row.filterMap id) / b)
          (1 / (if t < 1 then 1 else t)) - 1)) := by
  unfold calculateStableGrowth
  rw [if_neg (by omega)]
  simp only [hw]
  constructor
  · intro h
    rw [if_neg h]
  · intro h
    rw [if_pos h]

/-- C9. In the scoring engine's growth calculator, a stock/factor with at
least 2 valid per-horizon growth rates and positive standard deviation
gets the emitted value `(mean(valid) - mean(valid)) / std(valid) = 0`:
the code z-scores the mean of the valid rates against itself. -/
theorem c9_growth_self_zscore (sq : ℚ → ℚ) (rates : List (Option ℚ))
    (h2 : 2 ≤ (rates.filterMap id).length)
    (hs : 0 < sq (sampleVar (rates.filterMap id))) :
    growthCompositeValue sq rates = some 0 := by
  have hnil : rates.filterMap id ≠ [] := by
    intro h
    rw [h] at h2
    simp at h2
  have hlen0 : 0 < rates.length := by
    have hle := List.length_filterMap_le id rates
    rcases Nat.eq_zero_or_pos rates.length with h0 | h0
    · rw [h0] at hle
      omega
    · exact h0
  have hall : ¬ (rates.all Option.isNone = true) := by
    intro hall
    apply hnil
    refine List.filterMap_eq_nil_iff.mpr ?_
    intro a ha
    have := List.all_eq_true.mp hall a ha
    simpa [Option.isNone_iff_eq_none] using this
  obtain ⟨a, tl, hv⟩ : ∃ a tl, rates.filterMap id = a :: tl := by
    cases hfm : rates.filterMap id with
    | nil => exact absurd hfm hnil
    | cons a tl => exact ⟨a, tl, rfl⟩
  obtain ⟨c, tl2, hv2⟩ : ∃ c tl2, tl = c :: tl2 := by
    cases htl : tl with
    | nil =>
      rw [htl] at hv
      rw [hv] at h2
      simp at h2
    | cons c tl2 => exact ⟨c, tl2, rfl⟩
  rw [hv2] at hv
  unfold growthCompositeValue
  rw [if_pos ⟨hlen0, by simpa using hall⟩, hv]
  rw [hv] at hs
  simp only [List.length_cons, if_pos (by omega : 0 < tl2.length + 1 + 1)]
  rw [if_pos (by omega : 1 < tl2.length + 1 + 1)] at *
  rw [if_pos hs, sub_self, zero_div]

/-- C7. In the Altman-Z computation, the factor is undefined exactly when
`total_assets` is missing or zero (the derived `total_debt = 0.4 *
total_assets` is missing or zero in exactly the same cases), and every
term with a missing numerator contributes exactly its additive zero: the
result is unchanged when every missing numerator is replaced by 0. -/
theorem c7_altman_terms (f : FinSnapshot) (mv : Option ℚ) :
    ((calcAltmanZ f mv).isSome = true ↔
      ∃ a, f.total_assets = some a ∧ a ≠ 0) ∧
    calcAltmanZ f mv = calcAltmanZ (fillMissingNumerators f) (some (mv.getD 0)) := by
  obtain ⟨wc, re, eb, rev, ta⟩ := f
  cases ta with
  | none => simp [calcAltmanZ, fillMissingNumerators]
  | some a =>
    by_cases ha : a = 0
    · simp [calcAltmanZ, fillMissingNumerators, ha]
    · have hcond : ¬ (a = 0 ∨ a * (4 / 10) = 0) := by
        push_neg
        refine ⟨ha, ?_⟩
        intro h
        rcases mul_eq_zero.mp h with h1 | h2
        · exact ha h1
        · norm_num at h2
      constructor
      · simp [calcAltmanZ, hcond, ha]
      · cases wc <;> cases re <;> cases eb <;> cases rev <;> cases mv <;>
          simp [calcAltmanZ, fillMissingNumerators, hcond, zero_div, mul_zero,
            ite_self]

/-- C4 witness: with the growth threshold 3, the boundary holds at a
concrete input — 3 valid factors of 4 succeed with the mean of exactly the
non-missing values (2 = 6/3), while 2 valid factors of 3 fail. -/
theorem c4_dimension_gate_witness :
    (calcSingleDimensionScore [some (1 : ℚ), none, some 2, some 3] 3).isSome = true ∧
    (calcSingleDimensionScore [some (1 : ℚ), none, some 2] 3).isSome = false ∧
    (2 : ℚ) = (([some (1 : ℚ), none, some 2, some 3].filterMap id).sum /
      (([some (1 : ℚ), none, some 2, some 3].filterMap id).length : ℚ)) := by
  have h := c4_dimension_gate.2.2.2.2.2.2
  refine ⟨?_, ?_, ?_⟩
  · exact (h [some 1, none, some 2, some 3] 3).1.mpr (by decide)
  · cases hb : (calcSingleDimensionScore [some (1 : ℚ), none, some 2] 3).isSome with
    | false => rfl
    | true => exact absurd ((h [some 1, none, some 2] 3).1.mp hb) (by decide)
  · exact (h [some 1, none, some 2, some 3] 3).2 2 (by decide)

/-- C5 witness: on `c5row` with a 3-year lookback the base window is found
with average 1 > 0 while the latest average is −1 < 0, and the result is
exactly the −10 sentinel. -/
theorem c5_growth_sentinel_witness :
    calculateStableGrowth (fun x _ => x) c5row 3 = some (-10) ∧
    findBaseWindow (c5row.filterMap id) 3 = some (1, 5 / 2) := by
  refine ⟨?_, by decide⟩
  exact (c5_growth_sentinel (fun x _ => x) c5row 3 1 (5 / 2)
    (by decide) (by decide)).1 (by decide)

/-- C9 witness: rates [0, 2] have mean 1 and positive deviation, and the
emitted growth factor value is exactly 0. -/
theorem c9_growth_self_zscore_witness :
    growthCompositeValue (fun _ => 1) [some 0, some 2, none] = some 0 :=
  c9_growth_self_zscore (fun _ => 1) [some 0, some 2, none] (by decide) (by decide)

/-- C6 amended. The beta and idiosyncratic-risk factors are produced
exactly when both raw return series have at least 50 observations (before
pairing), at least 30 valid pairs remain after truncation, AND the
benchmark sample variance over the pairs is positive; in particular with
zero benchmark variance neither factor is emitted. -/
theorem c6_amended (sq : ℚ → ℚ) (s b : List (Option ℚ)) :
    ((marketRiskFactors sq s b).1.isSome = true ↔
      (50 ≤ s.length ∧ 50 ≤ b.length ∧ 30 ≤ validPairCount s b ∧
        0 < benchVariance s b)) ∧
    ((marketRiskFactors sq s b).2.isSome = true ↔
      (50 ≤ s.length ∧ 50 ≤ b.length ∧ 30 ≤ validPairCount s b ∧
        0 < benchVariance s b)) := by
  by_cases h1 : s.length < 50 ∨ b.length < 50
  · have hP : ¬ (50 ≤ s.length ∧ 50 ≤ b.length ∧ 30 ≤ validPairCount s b ∧
        0 < benchVariance s b) := by
      rcases h1 with h | h
      · rintro ⟨hA, -, -, -⟩
        omega
      · rintro ⟨-, hB, -, -⟩
        omega
    simp [marketRiskFactors, h1, hP]
  · by_cases h2 : (validPairs s b).length < 30
    · have hP : ¬ (50 ≤ s.length ∧ 50 ≤ b.length ∧ 30 ≤ validPairCount s b ∧
          0 < benchVariance s b) := by
        rintro ⟨-, -, hC, -⟩
        unfold validPairCount at hC
        omega
      simp [marketRiskFactors, h1, h2, hP]
    · by_cases h3 : 0 < sampleVar ((validPairs s b).map Prod.snd)
      · have hP : 50 ≤ s.length ∧ 50 ≤ b.length ∧ 30 ≤ validPairCount s b ∧
            0 < benchVariance s b := by
          push_neg at h1
          exact ⟨h1.1, h1.2, by unfold validPairCount; omega,
            by unfold benchVariance; exact h3⟩
        simp [marketRiskFactors, h1, h2, h3, hP]
      · have hP : ¬ (50 ≤ s.length ∧ 50 ≤ b.length ∧ 30 ≤ validPairCount s b ∧
            0 < benchVariance s b) := by
          rintro ⟨-, -, -, hD⟩
          unfold benchVariance at hD
          exact h3 hD
        simp [marketRiskFactors, h1, h2, h3, hP]

/-- Looking up the inserted key finds the inserted value. -/
theorem lookup_dictInsert_self {β : Type} (A : List (String × β)) (k : String)
    (v : β) : (dictInsert A k v).lookup k = some v := by
  induction A with
  | nil => simp [dictInsert, List.lookup]
  | cons p rest ih =>
    obtain ⟨k1, v1⟩ := p
    by_cases h : k1 = k
    · subst h
      simp [dictInsert, List.lookup]
    · have hne : (k == k1) = false := beq_eq_false_iff_ne.mpr (Ne.symm h)
      simp [dictInsert, h, List.lookup, ih, hne]

/-- Inserting under another key preserves a lookup. -/
theorem lookup_dictInsert_ne {β : Type} (A : List (String × β)) (k d : String)
    (v : β) (h : d ≠ k) : (dictInsert A k v).lookup d = A.lookup d := by
  induction A with
  | nil =>
    have hne : (d == k) = false := beq_eq_false_iff_ne.mpr h
    simp [dictInsert, List.lookup, hne]
  | cons p rest ih =>
    obtain ⟨k1, v1⟩ := p
    by_cases h1 : k1 = k
    · have hne : (d == k) = false := beq_eq_false_iff_ne.mpr h
      simp [dictInsert, h1, List.lookup, hne]
    · by_cases h2 : k1 = d
      · subst h2
        simp [dictInsert, h1, List.lookup]
      · have hne : (d == k1) = false :=
          beq_eq_false_iff_ne.mpr (fun hh => h2 (Eq.symm hh))
        simp [dictInsert, h1, List.lookup, hne, ih]

/-- The dictionary produced by one batch step records the folded outcome
of the processed date. -/
theorem batchStep_fst {α : Type} (compute : String → Except String (ScoreResult α))
    (acc : List (String × ScoreResult α) × ℕ) (d : String) :
    (batchStep compute acc d).1 = dictInsert acc.1 d (outcomeEntry (compute d)) := by
  unfold batchStep outcomeEntry
  cases compute d <;> rfl

/-- After folding the batch loop over any date list, the entry of a date
is exactly the folded outcome of its own computation, untouched by every
other date. -/
theorem batch_fold_lookup {α : Type} (compute : String → Except String (ScoreResult α))
    (ds : List String) (acc : List (String × ScoreResult α) × ℕ) (d : String) :
    ((ds.foldl (batchStep compute) acc).1).lookup d =
      if d ∈ ds then some (outcomeEntry (compute d)) else acc.1.lookup d := by
  induction ds generalizing acc with
  | nil => simp
  | cons k rest ih =>
    rw [List.foldl_cons, ih]
    by_cases hdk : d = k
    · subst hdk
      by_cases hdr : d ∈ rest
      · simp [hdr]
      · simp [hdr, batchStep_fst, lookup_dictInsert_self]
    · by_cases hdr : d ∈ rest
      · simp [hdr, List.mem_cons, hdk]
      · simp [hdr, List.mem_cons, hdk, batchStep_fst,
          lookup_dictInsert_ne _ _ _ _ hdk]

/-- C8. In a batch run, every date of the list has an entry in the batch
result equal to the folded outcome of its own per-date computation — a
success result, an error result, or the failure record of its raised
exception — independent of the outcomes of all sibling dates, which
therefore can never abort it; and the summary counts every date. -/
theorem c8_batch_isolation {α : Type}
    (compute : String → Except String (ScoreResult α)) (dates : List String)
    (d : String) (hd : d ∈ dates) :
    (batchCalculate compute dates).totalDates = dates.length ∧
    (batchCalculate compute dates).results.lookup d =
      some (outcomeEntry (compute d)) := by
  refine ⟨rfl, ?_⟩
  show ((dates.foldl (batchStep compute) ([], 0)).1).lookup d = _
  rw [batch_fold_lookup]
  simp [hd]

/-- C8 witness: with a computation that raises on the first date and
succeeds on the second, both dates get their own entry — the failure does
not abort the sibling date. -/
theorem c8_batch_isolation_witness :
    (batchCalculate c8compute ["2022-01-31", "2022-02-28"]).results.lookup
      "2022-02-28" = some (ScoreResult.success 1) ∧
    (batchCalculate c8compute ["2022-01-31", "2022-02-28"]).results.lookup
      "2022-01-31" = some (ScoreResult.failure "database down") := by
  constructor
  · have h := (c8_batch_isolation c8compute ["2022-01-31", "2022-02-28"]
      "2022-02-28" (by decide)).2
    simpa [c8compute, outcomeEntry] using h
  · have h := (c8_batch_isolation c8compute ["2022-01-31", "2022-02-28"]
      "2022-01-31" (by decide)).2
    simpa [c8compute, outcomeEntry] using h

/-- Looking up in a list tabulating a function over keys. -/
theorem lookup_map_keys {β : Type} (l : List String) (f : String → β) (c : String) :
    (l.map (fun x => (x, f x))).lookup c = if c ∈ l then some (f c) else none := by
  induction l with
  | nil => simp
  | cons a rest ih =>
    by_cases h : a = c
    · subst h
      simp [List.lookup]
    · have hne : (c == a) = false :=
        beq_eq_false_iff_ne.mpr (fun hh => h (Eq.symm hh))
      have hca : ¬ c = a := fun hh => h (Eq.symm hh)
      simp [List.lookup, hne, hca, ih, List.mem_cons]

/-- A code with a last non-missing market value occurs in the data. -/
theorem lastMv_mem (c : String) (data : List (String × Option ℚ)) (v : ℚ)
    (h : lastMv c data = some v) : c ∈ data.map Prod.fst := by
  by_contra hc
  have hfil : data.filter (fun p => p.1 = c) = [] := by
    refine List.filter_eq_nil_iff.mpr ?_
    intro p hp
    simp only [decide_eq_true_eq]
    intro hpc
    exact hc (List.mem_map.mpr ⟨p, hp, hpc⟩)
  unfold lastMv at h
  rw [hfil] at h
  simp at h

/-- C10 amended. When the market-value query returns no rows at all, every
stock of the universe defaults to `large_cap`. Otherwise exactly the
stocks present in the returned data receive a peer group — large_cap iff
their last non-missing total market value reaches `cutoff * 10000`,
small_cap otherwise (also when every value is missing) — while a stock
absent from the non-empty data receives no peer group at all. -/
theorem c10_amended (codes : List String) (data : List (String × Option ℚ))
    (c : String) :
    (data = [] →
      ((getMarketCapClassification codes data).lookup c =
        some MarketCapGroup.largeCap ↔ c ∈ codes)) ∧
    (data ≠ [] →
      (((getMarketCapClassification codes data).lookup c).isSome = true ↔
        c ∈ data.map Prod.fst)) ∧
    (data ≠ [] → ∀ v, lastMv c data = some v →
      ((getMarketCapClassification codes data).lookup c =
        some MarketCapGroup.largeCap ↔ largeSmallCutoff * 10000 ≤ v)) ∧
    (data ≠ [] → lastMv c data = none → c ∈ data.map Prod.fst →
      (getMarketCapClassification codes data).lookup c =
        some MarketCapGroup.smallCap) := by
  cases data with
  | nil =>
    refine ⟨?_, ?_, ?_, ?_⟩
    · intro _
      show (codes.map (fun x => (x, MarketCapGroup.largeCap))).lookup c = _ ↔ _
      rw [lookup_map_keys codes (fun _ => MarketCapGroup.largeCap) c]
      by_cases h : c ∈ codes
      · simp [h]
      · simp [h]
    · intro h
      exact absurd rfl h
    · intro h
      exact absurd rfl h
    · intro h
      exact absurd rfl h
  | cons p rest =>
    have hcls : (getMarketCapClassification codes (p :: rest)).lookup c =
        if c ∈ ((p :: rest).map Prod.fst).dedup
        then some (classifyMv (lastMv c (p :: rest))) else none := by
      show ((((p :: rest).map Prod.fst).dedup).map
        (fun x => (x, classifyMv (lastMv x (p :: rest))))).lookup c = _
      exact lookup_map_keys _ _ c
    refine ⟨?_, ?_, ?_, ?_⟩
    · intro h
      exact absurd h (by simp)
    · intro _
      rw [hcls]
      by_cases h : c ∈ ((p :: rest).map Prod.fst).dedup
      · simp [h, List.mem_dedup.mp h]
      · have : ¬ c ∈ (p :: rest).map Prod.fst := fun hh => h (List.mem_dedup.mpr hh)
        simp [h, this]
    · intro _ v hv
      have hmem : c ∈ (p :: rest).map Prod.fst := lastMv_mem c (p :: rest) v hv
      rw [hcls, if_pos (List.mem_dedup.mpr hmem), hv]
      unfold classifyMv
      by_cases h : largeSmallCutoff * 10000 ≤ v
      · simp [h]
      · simp [h]
    · intro _ hv hmem
      rw [hcls, if_pos (List.mem_dedup.mpr hmem), hv]
      rfl

/-- C10 witness: with empty data stock A defaults to `large_cap`; with
non-empty data stock A (last value 2000000 ≥ 1000000) is `large_cap` and
stock B (only missing values) is `small_cap`. -/
theorem c10_amended_witness :
    (getMarketCapClassification ["A"] []).lookup "A" =
      some MarketCapGroup.largeCap ∧
    (getMarketCapClassification ["A", "B"] c10wdata).lookup "A" =
      some MarketCapGroup.largeCap ∧
    (getMarketCapClassification ["A", "B"] c10wdata).lookup "B" =
      some MarketCapGroup.smallCap := by
  refine ⟨?_, ?_, ?_⟩
  · exact ((c10_amended ["A"] [] "A").1 rfl).mpr (by decide)
  · exact ((c10_amended ["A", "B"] c10wdata "A").2.2.1 (by decide) 2000000
      (by decide)).mpr (by decide)
  · exact (c10_amended ["A", "B"] c10wdata "B").2.2.2 (by decide) (by decide)
      (by decide)

/-- A missing cell stays missing under the z-transform. -/
theorem zCol_none (sq : ℚ → ℚ) (t : List SRow) (g : MarketCapGroup) (j : ℕ) :
    zCol sq t g j none = none := by
  simp [zCol]

/-- Under the standardization conditions the z-transform maps a cell
through the affine map. -/
theorem zCol_map_of (sq : ℚ → ℚ) (t : List SRow) (g : MarketCapGroup) (j : ℕ)
    (v : Option ℚ) (h1 : 5 ≤ (colVals t g j).length)
    (h2 : 0 < sq (sampleVar (colVals t g j))) :
    zCol sq t g j v = v.map
      (fun x => (x - sampleMean (colVals t g j)) / sq (sampleVar (colVals t g j))) := by
  simp [zCol, h1, h2]

/-- Outside the standardization conditions the z-transform is the
identity. -/
theorem zCol_id_of (sq : ℚ → ℚ) (t : List SRow) (g : MarketCapGroup) (j : ℕ)
    (v : Option ℚ)
    (h : ¬ (5 ≤ (colVals t g j).length ∧ 0 < sq (sampleVar (colVals t g j)))) :
    zCol sq t g j v = v := by
  by_cases h1 : 5 ≤ (colVals t g j).length
  · have h2 : ¬ 0 < sq (sampleVar (colVals t g j)) := fun hh => h ⟨h1, hh⟩
    simp [zCol, h1, h2]
  · simp [zCol, h1]

/-- The row transform does not change the peer group of a row. -/
theorem stdRow_group (sq : ℚ → ℚ) (t : List SRow) (r : SRow) :
    (stdRow sq t r).group = r.group := by
  obtain ⟨gr, vals⟩ := r
  cases gr with
  | none => rfl
  | some g =>
    show (if groupSize t g < 5 then (⟨some g, vals⟩ : SRow)
      else ⟨some g, idxMap (zCol sq t g) 0 vals⟩).group = some g
    split <;> rfl

/-- Rows of a small peer group are untouched. -/
theorem stdRow_small (sq : ℚ → ℚ) (t : List SRow) (r : SRow) (g : MarketCapGroup)
    (hr : r.group = some g) (hs : groupSize t g < 5) : stdRow sq t r = r := by
  obtain ⟨gr, vals⟩ := r
  simp only at hr
  subst hr
  unfold stdRow
  simp [hs]

/-- Indexing into the index-aware map. -/
theorem getD_idxMap (f : ℕ → Option ℚ → Option ℚ) (l : List (Option ℚ)) (i j : ℕ) :
    (idxMap f i l).getD j none =
      if j < l.length then f (i + j) (l.getD j none) else none := by
  induction l generalizing i j with
  | nil => simp [idxMap]
  | cons v vs ih =>
    cases j with
    | zero => simp [idxMap]
    | succ j2 =>
      have harith : i + 1 + j2 = i + (j2 + 1) := by omega
      simp only [idxMap, List.getD_cons_succ, ih (i + 1) j2, List.length_cons]
      rw [harith]
      by_cases hj : j2 < vs.length
      · simp [hj, Nat.succ_lt_succ hj]
      · have : ¬ j2 + 1 < vs.length + 1 := by omega
        simp [hj, this]

/-- The cell of a transformed row of a large enough group is the
z-transform of the original cell. -/
theorem rowVal_stdRow (sq : ℚ → ℚ) (t : List SRow) (r : SRow) (g : MarketCapGroup)
    (j : ℕ) (hr : r.group = some g) (h5 : ¬ groupSize t g < 5) :
    rowVal (stdRow sq t r) j = zCol sq t g j (rowVal r j) := by
  obtain ⟨gr, vals⟩ := r
  simp only at hr
  subst hr
  show rowVal (if groupSize t g < 5 then (⟨some g, vals⟩ : SRow)
    else ⟨some g, idxMap (zCol sq t g) 0 vals⟩) j = _
  rw [if_neg h5]
  show (idxMap (zCol sq t g) 0 vals).getD j none = _
  rw [getD_idxMap]
  by_cases hj : j < vals.length
  · rw [if_pos hj]
    simp only [Nat.zero_add]
    rfl
  · rw [if_neg hj]
    have : vals.getD j none = none := List.getD_eq_default _ _ (by omega)
    show (none : Option ℚ) = zCol sq t g j (rowVal ⟨some g, vals⟩ j)
    rw [show rowVal ⟨some g, vals⟩ j = vals.getD j none from rfl, this, zCol_none]

/-- filterMap through a total Option.map. -/
theorem filterMap_optionMap {γ : Type} (f : γ → Option ℚ) (ψ : ℚ → ℚ)
    (l : List γ) :
    l.filterMap (fun a => (f a).map ψ) = (l.filterMap f).map ψ := by
  induction l with
  | nil => simp
  | cons a tl ih =>
    cases hf : f a <;> simp [List.filterMap_cons, hf, ih]

/-- Pointwise congruence for filterMap. -/
theorem filterMap_fun_congr {γ δ : Type} (f h : γ → Option δ) (l : List γ)
    (hc : ∀ a ∈ l, f a = h a) : l.filterMap f = l.filterMap h := by
  induction l with
  | nil => simp
  | cons a tl ih =>
    rw [List.filterMap_cons, List.filterMap_cons, hc a (by simp),
      ih (fun x hx => hc x (by simp [hx]))]

/-- Characterization of a column of the standardized table: the column of
peer group `g` passes through unless the group has at least 5 rows, the
column has at least 5 non-missing values and a positive standard
deviation, in which case each value is z-scored against the column's
statistics. -/
theorem colVals_groupZStandardize (sq : ℚ → ℚ) (t : List SRow)
    (g : MarketCapGroup) (j : ℕ) :
    colVals (groupZStandardize sq t) g j =
      if groupSize t g < 5 then colVals t g j
      else if 5 ≤ (colVals t g j).length ∧ 0 < sq (sampleVar (colVals t g j)) then
        (colVals t g j).map
          (fun x => (x - sampleMean (colVals t g j)) /
            sq (sampleVar (colVals t g j)))
      else colVals t g j := by
  have hfil : (groupZStandardize sq t).filter (fun r => r.group = some g) =
      (t.filter (fun r => r.group = some g)).map (stdRow sq t) := by
    unfold groupZStandardize
    rw [List.filter_map]
    congr 1
    apply List.filter_congr
    intro r _
    simp [stdRow_group]
  have key : colVals (groupZStandardize sq t) g j =
      (t.filter (fun r => r.group = some g)).filterMap
        ((fun r => rowVal r j) ∘ stdRow sq t) := by
    unfold colVals
    rw [hfil, List.filterMap_map]
  rw [key]
  by_cases hs : groupSize t g < 5
  · rw [if_pos hs]
    have hz : ∀ r ∈ t.filter (fun r => r.group = some g),
        ((fun r => rowVal r j) ∘ stdRow sq t) r = rowVal r j := by
      intro r hr
      have hrg : r.group = some g := by
        have := List.mem_filter.mp hr
        simpa using this.2
      show rowVal (stdRow sq t r) j = rowVal r j
      rw [stdRow_small sq t r g hrg hs]
    rw [filterMap_fun_congr _ _ _ hz]
    rfl
  · rw [if_neg hs]
    have hcongr : (t.filter (fun r => r.group = some g)).filterMap
        ((fun r => rowVal r j) ∘ stdRow sq t) =
        (t.filter (fun r => r.group = some g)).filterMap
          (fun r => zCol sq t g j (rowVal r j)) := by
      apply filterMap_fun_congr
      intro r hr
      have hrg : r.group = some g := by
        have := List.mem_filter.mp hr
        simpa using this.2
      exact rowVal_stdRow sq t r g j hrg hs
    rw [hcongr]
    by_cases hc : 5 ≤ (colVals t g j).length ∧ 0 < sq (sampleVar (colVals t g j))
    · rw [if_pos hc]
      have hz : ∀ r ∈ t.filter (fun r => r.group = some g),
          zCol sq t g j (rowVal r j) = (rowVal r j).map
            (fun x => (x - sampleMean (colVals t g j)) /
              sq (sampleVar (colVals t g j))) := by
        intro r _
        exact zCol_map_of sq t g j _ hc.1 hc.2
      rw [filterMap_fun_congr _ _ _ hz, filterMap_optionMap]
      rfl
    · rw [if_neg hc]
      have hz : ∀ r ∈ t.filter (fun r => r.group = some g),
          zCol sq t g j (rowVal r j) = rowVal r j := by
        intro r _
        exact zCol_id_of sq t g j _ hc
      rw [filterMap_fun_congr _ _ _ hz]
      rfl

/-- Sum of a centered, scaled list. -/
theorem sum_map_center_div (l : List ℚ) (c s : ℚ) :
    (l.map (fun x => (x - c) / s)).sum = (l.sum - l.length * c) / s := by
  induction l with
  | nil => simp
  | cons a tl ih =>
    simp only [List.map_cons, List.sum_cons, ih, List.length_cons]
    rw [div_add_div_same]
    congr 1
    push_cast
    ring

/-- Sum of a list divided pointwise by a constant. -/
theorem sum_map_div (l : List ℚ) (f : ℚ → ℚ) (K : ℚ) :
    (l.map (fun x => f x / K)).sum = (l.map f).sum / K := by
  induction l with
  | nil => simp
  | cons a tl ih =>
    simp only [List.map_cons, List.sum_cons, ih]
    rw [div_add_div_same]

/-- Centering a nonempty list at its mean and dividing by anything yields
mean 0. -/
theorem sampleMean_standardized (l : List ℚ) (hl : l ≠ []) (s : ℚ) :
    sampleMean (l.map (fun x => (x - sampleMean l) / s)) = 0 := by
  have hn : (l.length : ℚ) ≠ 0 := by
    have : l.length ≠ 0 := by
      intro h0
      exact hl (List.length_eq_zero.mp h0)
    exact_mod_cast this
  unfold sampleMean
  rw [List.length_map, sum_map_center_div]
  have hz : l.sum - (l.length : ℚ) * (l.sum / (l.length : ℚ)) = 0 := by
    field_simp
  rw [hz, zero_div, zero_div]

/-- Z-scoring a list of at least 5 values by an exact square root of its
sample variance yields sample variance 1. -/
theorem sampleVar_standardized (l : List ℚ) (h5 : 5 ≤ l.length) (s : ℚ)
    (hs : 0 < s) (hsq : s * s = sampleVar l) :
    sampleVar (l.map (fun x => (x - sampleMean l) / s)) = 1 := by
  have hl : l ≠ [] := by
    intro h
    rw [h] at h5
    simp at h5
  have hlenq : (5 : ℚ) ≤ (l.length : ℚ) := by exact_mod_cast h5
  have hn1 : ((l.length : ℚ) - 1) ≠ 0 := by
    intro h0
    have : (l.length : ℚ) = 1 := by linarith
    linarith
  have hsne : s ≠ 0 := ne_of_gt hs
  have hmean := sampleMean_standardized l hl s
  unfold sampleVar
  rw [List.length_map, hmean]
  simp only [sub_zero, List.map_map]
  have hcomp : ((fun x => x ^ 2) ∘ (fun x => (x - sampleMean l) / s)) =
      fun x => ((x - sampleMean l) ^ 2) / (s * s) := by
    funext x
    rw [Function.comp_apply, div_pow]
    congr 1
    rw [sq]
  rw [hcomp]
  have hdivsum := sum_map_div l (fun x => (x - sampleMean l) ^ 2) (s * s)
  rw [hdivsum]
  have hsum : (l.map (fun x => (x - sampleMean l) ^ 2)).sum =
      sampleVar l * ((l.length : ℚ) - 1) := by
    unfold sampleVar
    field_simp
  rw [hsum, ← hsq]
  field_simp

/-- C3 amended. After the factor-level standardization step, within every
peer group with at least 5 members each factor column that has at least 5
non-missing entries and a positive sample standard deviation (with the
square root exact on this column) has mean 0 and sample variance 1 over
its non-missing entries; a column of a group with fewer than 5 members,
with fewer than 5 non-missing entries, or whose sample standard deviation
is not positive (in particular a zero-variance column) passes through
unchanged. -/
theorem c3_amended (sq : ℚ → ℚ) (t : List SRow) (g : MarketCapGroup) (j : ℕ) :
    (5 ≤ groupSize t g → 5 ≤ (colVals t g j).length →
      0 < sq (sampleVar (colVals t g j)) →
      sq (sampleVar (colVals t g j)) * sq (sampleVar (colVals t g j)) =
        sampleVar (colVals t g j) →
      sampleMean (colVals (groupZStandardize sq t) g j) = 0 ∧
      sampleVar (colVals (groupZStandardize sq t) g j) = 1) ∧
    (groupSize t g < 5 → colVals (groupZStandardize sq t) g j = colVals t g j) ∧
    ((colVals t g j).length < 5 →
      colVals (groupZStandardize sq t) g j = colVals t g j) ∧
    (¬ 0 < sq (sampleVar (colVals t g j)) →
      colVals (groupZStandardize sq t) g j = colVals t g j) := by
  refine ⟨?_, ?_, ?_, ?_⟩
  · intro hg hlen hs hsq
    rw [colVals_groupZStandardize, if_neg (by omega), if_pos ⟨hlen, hs⟩]
    have hl : colVals t g j ≠ [] := by
      intro h
      rw [h] at hlen
      simp at hlen
    exact ⟨sampleMean_standardized _ hl _,
      sampleVar_standardized _ hlen _ hs hsq⟩
  · intro hg
    rw [colVals_groupZStandardize, if_pos hg]
  · intro hlen
    rw [colVals_groupZStandardize]
    split_ifs with h1 h2
    · rfl
    · exact absurd h2.1 (by omega)
    · rfl
  · intro hns
    rw [colVals_groupZStandardize]
    split_ifs with h1 h2
    · rfl
    · exact absurd h2.2 hns
    · rfl

/-- C3 witness: on `c3wTable` (column [0, 0, 1, 2, 2], variance exactly 1,
square root 1) the standardized column has mean 0 and variance 1; on the
2-member `c3smallTable` the column passes through; and on the 5-member
constant-column `c3constTable` (variance 0, square root 0) the column also
passes through. -/
theorem c3_amended_witness :
    (sampleMean (colVals (groupZStandardize (fun _ => 1) c3wTable)
        MarketCapGroup.largeCap 0) = 0 ∧
      sampleVar (colVals (groupZStandardize (fun _ => 1) c3wTable)
        MarketCapGroup.largeCap 0) = 1) ∧
    colVals (groupZStandardize (fun _ => 1) c3smallTable)
        MarketCapGroup.largeCap 0 =
      colVals c3smallTable MarketCapGroup.largeCap 0 ∧
    colVals (groupZStandardize (fun _ => 0) c3constTable)
        MarketCapGroup.largeCap 0 =
      colVals c3constTable MarketCapGroup.largeCap 0 := by
  refine ⟨?_, ?_, ?_⟩
  · exact (c3_amended (fun _ => 1) c3wTable MarketCapGroup.largeCap 0).1
      (by decide) (by decide) (by decide) (by decide)
  · exact (c3_amended (fun _ => 1) c3smallTable MarketCapGroup.largeCap 0).2.1
      (by decide)
  · exact (c3_amended (fun _ => 0) c3constTable MarketCapGroup.largeCap 0).2.2.2
      (by decide)
